import Mathlib

/-!
Shallow embedding of the annotation consensus and agreement engine of the
annotation_tool repository (ar/data.py and the related pieces of db/model.py),
together with theorems settling the specification claims about it.

Conventions:
- Python lists become Lean lists; Python dicts become association lists where
  a later write shadows an earlier one (we prepend and look up the first hit).
- Machine floats only ever carry the kappa score, whose numeric value no claim
  depends on; we compute it in the rationals with the standard observed and
  expected agreement formula (division by zero yields 0 in Lean, standing in
  for the NaN that sklearn produces on empty inputs).
- Fallible code returns Except; a Python exception becomes an error value
  naming the exception class.
-/

/-- Association-list lookup: first binding wins.  Models reading a Python dict
that was built by prepending updated bindings. -/
def dictLookup {κ α : Type} [DecidableEq κ] : List (κ × α) → κ → Option α
  | [], _ => none
  | (k, v) :: t, k2 => if k = k2 then some v else dictLookup t k2

/-- Distinct elements of a list in order of first occurrence.  Models the key
order of a Python dict or Counter built by iterating the list. -/
def dedupKeysAux {α : Type} [DecidableEq α] : List α → List α → List α
  | _, [] => []
  | seen, x :: xs =>
    if x ∈ seen then dedupKeysAux seen xs else x :: dedupKeysAux (x :: seen) xs

/-- Distinct elements of a list in order of first occurrence.  Models the key
order of a Python dict or Counter built by iterating the list. -/
def dedupKeys {α : Type} [DecidableEq α] (l : List α) : List α := dedupKeysAux [] l

/-- Lexicographic strict order on character lists, mirroring how Python
compares strings (code point by code point). -/
def charsLt : List Char → List Char → Bool
  | [], [] => false
  | [], _ :: _ => true
  | _ :: _, [] => false
  | a :: as, b :: bs => if a < b then true else if b < a then false else charsLt as bs

/-- Python string comparison a < b, used by the sorted() call that
canonicalizes an annotator pair. -/
def strLt (a b : String) : Bool := charsLt a.data b.data

/-! ### Consensus merge (_majority_label in ar/data.py) -/

/-- Left scan keeping the current best label: a later label replaces the best
one only when its count in f is strictly greater.  This reproduces picking
Counter(f).most_common()[0][0] in Python: Counter keys are ordered by first
occurrence and most_common sorts by count with a stable sort, so the winner is
the first-seen label among those of maximal count, which is exactly what this
scan computes when started on the first element of f. -/
def mcGo (f : List Int) : Int → List Int → Int
  | best, [] => best
  | best, x :: xs => mcGo f (if f.count x > f.count best then x else best) xs

/-- _majority_label: drop zeros (unsure), then take the most common remaining
value, first-seen winning ties; None when nothing remains. -/
def majorityLabel (labels : List Int) : Option Int :=
  let f := labels.filter (fun x => x ≠ 0)
  match f with
  | [] => none
  | x :: xs => some (mcGo (x :: xs) x xs)

/-! ### Kappa pre-filter (_exclude_unknowns_for_kappa_calculation) -/

/-- The loop body of _exclude_unknowns_for_kappa_calculation: walk the two
value sequences in step and keep only positions where both are non-zero. -/
def excludeAux : List Int → List Int → List Int × List Int
  | x :: xs, y :: ys =>
    let p := excludeAux xs ys
    if x ≠ 0 ∧ y ≠ 0 then (x :: p.1, y :: p.2) else p
  | _, _ => ([], [])

/-- _exclude_unknowns_for_kappa_calculation: raises ValueError when the two
sequences differ in length, otherwise filters out positions where either
side is 0. -/
def excludeUnknowns (r1 r2 : List Int) : Except String (List Int × List Int) :=
  if r1.length ≠ r2.length then .error "ValueError"
  else .ok (excludeAux r1 r2)

/-! ### Cohen kappa and the per-label agreement matrix -/

/-- Number of positions where the two raters agree. -/
def countMatches (r1 r2 : List Int) : Nat :=
  ((r1.zip r2).filter (fun p => p.1 = p.2)).length

/-- Cohen kappa score over two equal-length label sequences, as computed by
sklearn.metrics.cohen_kappa_score: observed agreement po, chance agreement pe
from the marginal label distributions, kappa = (po - pe) / (1 - pe).  Values
are rationals; a division by zero (empty input, or pe = 1) yields 0 where the
float code would produce NaN.  No claim below depends on this number. -/
def kappaScore (r1 r2 : List Int) : ℚ :=
  let n : ℚ := (r1.length : ℚ)
  let po : ℚ := (countMatches r1 r2 : ℚ) / n
  let pe : ℚ := (((dedupKeys (r1 ++ r2)).map
    (fun v => ((r1.count v : ℚ) * (r2.count v : ℚ)))).sum) / (n * n)
  (po - pe) / (1 - pe)

/-- The per-label agreement matrix: annotator-name pair to kappa score.
Built as an assignment list; a later assignment shadows an earlier one. -/
def MatrixT : Type := List ((String × String) × ℚ)

/-- kappa_matrix[label][a][b] = v. -/
def setEntry (m : MatrixT) (k : String × String) (v : ℚ) : MatrixT := (k, v) :: m

/-- One iteration of the pair loop in _compute_kappa_matrix: skip a pair whose
retrieval of shared annotations returned None, otherwise drop unsure positions,
compute the kappa score, and assign it at both orientations of the pair along
with the two diagonal self-agreement entries. -/
def kappaStep (m : MatrixT) (pr : (String × String) × Option (List Int × List Int)) :
    Except String MatrixT :=
  match pr.2 with
  | none => .ok m
  | some rs =>
    match excludeUnknowns rs.1 rs.2 with
    | .error e => .error e
    | .ok p =>
      let k := kappaScore p.1 p.2
      .ok (setEntry (setEntry (setEntry (setEntry m (pr.1.1, pr.1.2) k)
        (pr.1.2, pr.1.1) k) (pr.1.1, pr.1.1) 1) (pr.1.2, pr.1.2) 1)

/-- The pair loop of _compute_kappa_matrix for one label, started from a given
matrix. -/
def computeKappaMatrixFrom (m0 : MatrixT)
    (pd : List ((String × String) × Option (List Int × List Int))) :
    Except String MatrixT :=
  pd.foldlM kappaStep m0

/-- _compute_kappa_matrix restricted to a single label: fold the pair loop
over the raw data starting from the empty matrix. -/
def computeKappaMatrixForLabel
    (pd : List ((String × String) × Option (List Int × List Int))) :
    Except String MatrixT :=
  computeKappaMatrixFrom [] pd

/-! ### Raw kappa data construction
(_retrieve_annotation_with_same_context_shared_by_two_users and
_construct_kappa_stats_raw_data) -/

/-- A user together with their classification annotations, each a pair of a
context id and an annotation value. -/
structure PyUser where
  username : String
  annotations : List (Nat × Int)
deriving DecidableEq

/-- Value of the context-to-value dict built from a user annotation list: a
later annotation for the same context shadows an earlier one (Python dict
comprehension semantics).  Only queried at context ids present in the list;
the 0 default is never reached by the code below. -/
def ctxVal (u : PyUser) (c : Nat) : Int :=
  u.annotations.foldl (fun v p => if p.1 = c then p.2 else v) 0

/-- The distinct context ids a user annotated, in first-occurrence order. -/
def ctxKeys (u : PyUser) : List Nat :=
  dedupKeys (u.annotations.map Prod.fst)

/-- _retrieve_annotation_with_same_context_shared_by_two_users: None when the
two context-id sets do not intersect, otherwise the two value sequences read
off over the shared context ids in a common order. -/
def retrieveShared (u1 u2 : PyUser) : Option (List Int × List Int) :=
  let inter := (ctxKeys u1).filter (fun c => (ctxKeys u2).contains c)
  if inter = [] then none
  else some (inter.map (fun c => ctxVal u1 c), inter.map (fun c => ctxVal u2 c))

/-- tuple(sorted([u1.username, u2.username])). -/
def sortedKey (u1 u2 : PyUser) : String × String :=
  if strLt u2.username u1.username then (u2.username, u1.username)
  else (u1.username, u2.username)

/-- One entry of the raw kappa data: the canonicalized username pair together
with the two shared value sequences arranged so that the first sequence
belongs to the first name of the key, exactly as _compute_kappa_matrix reads
the per-user result dict back.  When the two usernames are equal the second
dict write shadows the first, so both reads yield the second sequence. -/
def constructPairData (u1 u2 : PyUser) :
    (String × String) × Option (List Int × List Int) :=
  (sortedKey u1 u2,
    match retrieveShared u1 u2 with
    | none => none
    | some vs =>
      if u1.username = u2.username then some (vs.2, vs.2)
      else if strLt u2.username u1.username then some (vs.2, vs.1)
      else some (vs.1, vs.2))

/-- itertools.combinations(l, 2) as ordered pairs of positions i < j. -/
def combinations {α : Type} : List α → List (α × α)
  | [] => []
  | x :: xs => (xs.map (fun y => (x, y))) ++ combinations xs

/-- _construct_kappa_stats_raw_data for one label: the pair data of every
unordered pair of distinct users. -/
def constructKappaStatsRawData (users : List PyUser) :
    List ((String × String) × Option (List Int × List Int)) :=
  (combinations users).map (fun uv => constructPairData uv.1 uv.2)

/-- Reading one matrix entry out of the computation result; none both when the
computation failed and when the entry was never assigned. -/
def matrixEntry (r : Except String MatrixT) (k : String × String) : Option ℚ :=
  match r with
  | .error _ => none
  | .ok m => dictLookup m k

/-! ### Request ring scan (get_next_ar) -/

/-- get_next_ar: ar_all is the ordered request id list, ar_done the set of
already annotated ids, ar_id the request the annotator just looked at.  The
index starts at the position of ar_id (0 when absent, the bare except), and
the while loop then visits (start+1+k) mod n for k = 0 .. n-2, returning the
first id not yet done.  An empty request list raises ZeroDivisionError at the
modulo before the loop. -/
def get_next_ar (ar_all : List String) (ar_done : List String) (ar_id : String) :
    Except String (Option String) :=
  if ar_all.length = 0 then .error "ZeroDivisionError"
  else
    let start := match ar_all.indexOf? ar_id with
      | some i => i
      | none => 0
    let n := ar_all.length
    let visited := (List.range (n - 1)).map (fun k => ar_all.getD ((start + 1 + k) % n) "")
    .ok (visited.find? (fun a => ¬ ar_done.contains a))

/-! ### Annotation recording (annotate_ar) -/

/-- The slice of the on-disk store that annotate_ar touches: the request files
of one annotator (ar_id to request payload) and their annotation files
(ar_id to the saved record, which pairs the full request payload with the
submitted annotation). -/
structure AnnoStore where
  requests : List (String × String)
  annotations : List (String × (String × String))
deriving DecidableEq

/-- annotate_ar: fetch the request; when it is missing return None and leave
the store untouched, otherwise save a record carrying the full request payload
together with the submitted annotation and return the file name (modelled by
the request id). -/
def annotate_ar (s : AnnoStore) (ar_id : String) ( annotation : String) :
    AnnoStore × Option String :=
  match dictLookup s.requests ar_id with
  | none => (s, none)
  | some ar =>
    ({ s with annotations := (ar_id, (ar, annotation)) :: s.annotations }, some ar_id)

/-! ### Request batch saving (save_new_ar_for_user) -/

/-- An annotation request dict: its ar_id names the file it is saved to. -/
structure ARequest where
  ar_id : String
  payload : String
deriving DecidableEq

/-- save_new_ar_for_user: the per-annotator request directory as an
association list from file name to request.  With clean_existing the old
directory is removed first; the new requests are then written one file each in
reverse order, a later write shadowing an earlier file of the same name. -/
def save_new_ar_for_user (existing : List (String × ARequest))
    (annotation_requests : List ARequest) (clean_existing : Bool) :
    List (String × ARequest) :=
  let base := if clean_existing then [] else existing
  (annotation_requests.reverse).foldl (fun d r => (r.ar_id, r) :: d) base

/-! ### Corpus export (_export_distinct_labeled_examples) -/

/-- One annotation record as read back from disk: the requested ar_id, the
optional text of the request data, and the labels dict of the annotation. -/
structure PyAnno where
  ar_id : String
  text : Option String
  labels : List (String × Int)
deriving DecidableEq

/-- labels[ar_id][k].append(v) on the inner per-entity dict: extend the value
list of key k, creating the key at the end on first sight. -/
def appendVal (g : List (String × List Int)) (k : String) (v : Int) :
    List (String × List Int) :=
  match g with
  | [] => [(k, [v])]
  | (k2, vs) :: t => if k2 = k then (k2, vs ++ [v]) :: t else (k2, vs) :: appendVal t k v

/-- labels[ar_id][k].append(v) on the outer dict keyed by entity. -/
def addLabelItem (G : List (String × List (String × List Int))) (arId k : String)
    (v : Int) : List (String × List (String × List Int)) :=
  match G with
  | [] => [(arId, [(k, [v])])]
  | (a, g) :: t =>
    if a = arId then (a, appendVal g k v) :: t else (a, g) :: addLabelItem t arId k v

/-- Step 1 of _export_distinct_labeled_examples: gather every label value by
entity and label, in encounter order. -/
def gatherLabels (annos : List PyAnno) : List (String × List (String × List Int)) :=
  annos.foldl (fun G anno =>
    anno.labels.foldl (fun G2 kv => addLabelItem G2 anno.ar_id kv.1 kv.2) G) []

/-- The text dict of _export_distinct_labeled_examples: every annotation
overwrites the text of its entity, data.get(text) or the empty string. -/
def textOf (annos : List PyAnno) (arId : String) : String :=
  annos.foldl (fun t a => if a.ar_id = arId then a.text.getD "" else t) ""

/-- Step 2: merge each entity label group by majority vote, dropping labels
whose consensus is None. -/
def mergeLabels (g : List (String × List Int)) : List (String × Int) :=
  g.filterMap (fun kv => (majorityLabel kv.2).map (fun v => (kv.1, v)))

/-- An exported record. -/
structure ExportRec where
  text : String
  labels : List (String × Int)
deriving DecidableEq

/-- _export_distinct_labeled_examples: gather, merge, and join with the text,
keeping only entities that still have at least one label. -/
def exportDistinct (annos : List PyAnno) : List ExportRec :=
  (gatherLabels annos).filterMap (fun ag =>
    let m := mergeLabels ag.2
    if m = [] then none else some ⟨textOf annos ag.1, m⟩)

/-! ## Helper lemmas -/

theorem dictLookup_eq_some_mem {κ α : Type} [DecidableEq κ]
    {l : List (κ × α)} {k : κ} {v : α} (h : dictLookup l k = some v) : (k, v) ∈ l := by
  induction l with
  | nil => simp [dictLookup] at h
  | cons hd t ih =>
    obtain ⟨k1, v1⟩ := hd
    rw [dictLookup] at h
    by_cases hk : k1 = k
    · rw [if_pos hk] at h
      obtain rfl := hk
      obtain rfl : v1 = v := Option.some.inj h
      exact List.mem_cons_self _ _
    · rw [if_neg hk] at h
      exact List.mem_cons_of_mem _ (ih h)

theorem dictLookup_ne_none_iff {κ α : Type} [DecidableEq κ]
    (l : List (κ × α)) (k : κ) : dictLookup l k ≠ none ↔ ∃ v, (k, v) ∈ l := by
  induction l with
  | nil => simp [dictLookup]
  | cons hd t ih =>
    obtain ⟨k1, v1⟩ := hd
    rw [dictLookup]
    by_cases hk : k1 = k
    · subst hk
      simp
    · rw [if_neg hk, ih]
      constructor
      · rintro ⟨v, hv⟩
        exact ⟨v, List.mem_cons_of_mem _ hv⟩
      · rintro ⟨v, hv⟩
        rcases List.mem_cons.1 hv with h | h
        · exact absurd (congrArg Prod.fst h.symm) hk
        · exact ⟨v, h⟩

theorem excludeAux_length : ∀ r1 r2 : List Int,
    (excludeAux r1 r2).1.length = (excludeAux r1 r2).2.length := by
  intro r1
  induction r1 with
  | nil => intro r2; simp [excludeAux]
  | cons x xs ih =>
    intro r2
    cases r2 with
    | nil => simp [excludeAux]
    | cons y ys =>
      rw [excludeAux]
      by_cases h : x ≠ 0 ∧ y ≠ 0
      · simp only [if_pos h, List.length_cons]
        rw [ih ys]
      · simp only [if_neg h]
        exact ih ys

theorem excludeAux_zip : ∀ r1 r2 : List Int,
    (excludeAux r1 r2).1.zip (excludeAux r1 r2).2 =
      (r1.zip r2).filter (fun q => decide (q.1 ≠ 0 ∧ q.2 ≠ 0)) := by
  intro r1
  induction r1 with
  | nil => intro r2; simp [excludeAux]
  | cons x xs ih =>
    intro r2
    cases r2 with
    | nil => simp [excludeAux]
    | cons y ys =>
      rw [excludeAux, List.zip_cons_cons, List.filter_cons]
      by_cases h : x ≠ 0 ∧ y ≠ 0
      · simp [if_pos h, decide_eq_true h, List.zip_cons_cons, ih ys]
      · simp [if_neg h, decide_eq_false h, ih ys]

/-! ## Claim C5 -/

/-- C5: the kappa pre-filter raises an error exactly when the two value
sequences have unequal length; for equal-length inputs it returns two
sequences of equal length whose paired content is exactly the positions at
which both inputs are non-zero, in the original order. -/
theorem exclude_unknowns_spec (r1 r2 : List Int) :
    ((∃ e, excludeUnknowns r1 r2 = .error e) ↔ r1.length ≠ r2.length) ∧
    (r1.length = r2.length →
      ∃ p, excludeUnknowns r1 r2 = .ok p ∧ p.1.length = p.2.length ∧
        p.1.zip p.2 = (r1.zip r2).filter (fun q => decide (q.1 ≠ 0 ∧ q.2 ≠ 0))) := by
  constructor
  · constructor
    · rintro ⟨e, he⟩
      intro hlen
      rw [excludeUnknowns, if_neg (fun h => h hlen)] at he
      exact Except.noConfusion he
    · intro hlen
      exact ⟨"ValueError", by rw [excludeUnknowns, if_pos hlen]⟩
  · intro hlen
    refine ⟨excludeAux r1 r2, ?_, excludeAux_length r1 r2, excludeAux_zip r1 r2⟩
    rw [excludeUnknowns, if_neg (fun h => h hlen)]

/-- Witness for C5 at concrete sequences of equal and unequal length. -/
theorem exclude_unknowns_spec_witness :
    (((∃ e, excludeUnknowns [1, 0, 2] [3, 4, 0] = .error e) ↔
        ([1, 0, 2] : List Int).length ≠ ([3, 4, 0] : List Int).length) ∧
      (([1, 0, 2] : List Int).length = ([3, 4, 0] : List Int).length →
        ∃ p, excludeUnknowns [1, 0, 2] [3, 4, 0] = .ok p ∧ p.1.length = p.2.length ∧
          p.1.zip p.2 = (([1, 0, 2] : List Int).zip [3, 4, 0]).filter
            (fun q => decide (q.1 ≠ 0 ∧ q.2 ≠ 0)))) ∧
    (∃ e, excludeUnknowns [1] [] = .error e) :=
  ⟨exclude_unknowns_spec [1, 0, 2] [3, 4, 0],
   (exclude_unknowns_spec [1] []).1.2 (by decide)⟩

/-! ## Claim C3 -/

/-- C3 counterexample: the consensus merge does not filter out the
NOT_ANNOTATED sentinel -2; on the vote list [-2] nothing would remain under
the claimed filtering, yet the consensus value is -2, not None. -/
theorem majority_not_annotated_counterexample : majorityLabel [-2] = some (-2) := by
  decide

/-- C3 amended: the consensus merge filters out 0 (unsure) values, but not the
NOT_ANNOTATED sentinel -2, before voting; whenever every vote is 0 the
consensus value is None, and in particular merging [(0,1.0),(0,1.0)] yields
consensus None. -/
theorem majority_unsure_filtering :
    (∀ l : List Int, majorityLabel l = majorityLabel (l.filter (fun x => x ≠ 0))) ∧
    (∀ l : List Int, (∀ x ∈ l, x = 0) → majorityLabel l = none) ∧
    majorityLabel [0, 0] = none := by
  refine ⟨?_, ?_, by decide⟩
  · intro l
    have h2 : (l.filter (fun x => x ≠ 0)).filter (fun x => x ≠ 0) =
        l.filter (fun x => x ≠ 0) := by
      simp [List.filter_filter]
    unfold majorityLabel
    rw [h2]
  · intro l hl
    have hf : l.filter (fun x => x ≠ 0) = [] := by
      rw [List.filter_eq_nil_iff]
      intro a ha
      simp [hl a ha]
    unfold majorityLabel
    rw [hf]

/-- Witness for C3 at the vote list [0, 0]. -/
theorem majority_unsure_filtering_witness :
    majorityLabel [0, 0] = majorityLabel (([0, 0] : List Int).filter (fun x => x ≠ 0)) ∧
    majorityLabel [0, 0] = none :=
  ⟨majority_unsure_filtering.1 [0, 0],
   majority_unsure_filtering.2.1 [0, 0] (by decide)⟩

/-! ## Claim C4 -/

/-- C4: the claim (and the docstring of get_next_ar) says that an unknown
currentRequestId makes the scan start from the first request, so with requests
[a, b], only b annotated, the next request should be a.  The code sets the
scan start to index 0 and then advances before the first status check, so
index 0 is never examined: it returns None although request a is pending. -/
theorem get_next_ar_skips_first_pending :
    get_next_ar ["a", "b"] ["b"] "zzz" = .ok none ∧
    "a" ∈ ["a", "b"] ∧ "a" ∉ ["b"] :=
  ⟨rfl, by decide, by decide⟩

/-! ## Claim C8 -/

/-- C8 counterexample: an annotator with zero requests (vacuously all
completed) does not get None back; the modulo taken before the ring scan
raises ZeroDivisionError. -/
theorem get_next_ar_empty_counterexample :
    get_next_ar [] [] "a" = .error "ZeroDivisionError" := rfl

/-- C8 amended: for every annotator with at least one annotation request all
of which have been completed, the ring scan of nextRequest terminates and
returns None; with zero requests the code instead raises ZeroDivisionError. -/
theorem get_next_ar_all_done_none (ar_all ar_done : List String) (ar_id : String)
    (hne : ar_all ≠ []) (hdone : ∀ a ∈ ar_all, a ∈ ar_done) :
    get_next_ar ar_all ar_done ar_id = .ok none := by
  have hlen : ¬ ar_all.length = 0 := fun h => hne (List.length_eq_zero.1 h)
  rw [get_next_ar, if_neg hlen]
  simp only [Except.ok.injEq]
  rw [List.find?_eq_none]
  intro x hx
  rw [List.mem_map] at hx
  obtain ⟨k, hk, rfl⟩ := hx
  have hlt : (((match ar_all.indexOf? ar_id with
      | some i => i
      | none => 0) + 1 + k) % ar_all.length) < ar_all.length :=
    Nat.mod_lt _ (Nat.pos_of_ne_zero hlen)
  rw [List.getD_eq_getElem ar_all "" hlt]
  have hmem : ar_all[(((match ar_all.indexOf? ar_id with
      | some i => i
      | none => 0) + 1 + k) % ar_all.length)] ∈ ar_all := List.getElem_mem hlt
  have hdone2 := hdone _ hmem
  simp [hdone2]

/-- Witness for C8 at a one-request task whose request has been annotated. -/
theorem get_next_ar_all_done_none_witness :
    (["a"] : List String) ≠ [] ∧ (∀ a ∈ (["a"] : List String), a ∈ ["b", "a"]) ∧
    get_next_ar ["a"] ["b", "a"] "x" = .ok none :=
  ⟨by decide, by decide, get_next_ar_all_done_none ["a"] ["b", "a"] "x" (by decide) (by decide)⟩

/-! ## Claim C9 -/

/-- C9: annotate_ar fails (returning the None that the web layer surfaces as
NotFound) when the referenced request does not exist, leaving the store
untouched; otherwise it persists a record pairing the full original request
payload with the submitted annotation value. -/
theorem annotate_ar_spec (s : AnnoStore) (ar_id annotation : String) :
    (dictLookup s.requests ar_id = none → annotate_ar s ar_id annotation = (s, none)) ∧
    (∀ ar, dictLookup s.requests ar_id = some ar →
      annotate_ar s ar_id annotation =
        ({ s with annotations := (ar_id, (ar, annotation)) :: s.annotations }, some ar_id) ∧
      dictLookup (annotate_ar s ar_id annotation).1.annotations ar_id =
        some (ar, annotation)) := by
  constructor
  · intro h
    rw [annotate_ar, h]
  · intro ar h
    rw [annotate_ar, h]
    exact ⟨rfl, by simp [dictLookup]⟩

/-- Witness for C9: a store holding request r1; recording an annotation for a
missing id changes nothing, recording one for r1 persists the record. -/
theorem annotate_ar_spec_witness :
    annotate_ar ⟨[("r1", "REQ")], []⟩ "missing" "v" = (⟨[("r1", "REQ")], []⟩, none) ∧
    (annotate_ar ⟨[("r1", "REQ")], []⟩ "r1" "v" =
      (⟨[("r1", "REQ")], [("r1", ("REQ", "v"))]⟩, some "r1") ∧
     dictLookup (annotate_ar ⟨[("r1", "REQ")], []⟩ "r1" "v").1.annotations "r1" =
       some ("REQ", "v")) :=
  ⟨(annotate_ar_spec ⟨[("r1", "REQ")], []⟩ "missing" "v").1 rfl,
   (annotate_ar_spec ⟨[("r1", "REQ")], []⟩ "r1" "v").2 "REQ" rfl⟩

/-! ## Claim C10 -/

theorem save_foldl_eq {f : ARequest → String × ARequest} :
    ∀ (l : List ARequest) (acc : List (String × ARequest)),
      l.foldl (fun d r => f r :: d) acc = (l.map f).reverse ++ acc := by
  intro l
  induction l with
  | nil => intro acc; simp
  | cons x xs ih =>
    intro acc
    rw [List.foldl_cons, ih, List.map_cons, List.reverse_cons, List.append_assoc]
    rfl

theorem save_new_ar_eq_map (existing : List (String × ARequest)) (reqs : List ARequest) :
    save_new_ar_for_user existing reqs true = reqs.map (fun r => (r.ar_id, r)) := by
  rw [save_new_ar_for_user]
  show reqs.reverse.foldl (fun d r => (r.ar_id, r) :: d) [] = _
  rw [save_foldl_eq, List.map_reverse, List.reverse_reverse, List.append_nil]

/-- C10: with the default clean_existing=True, saving a new batch of requests
first discards every previously saved request of the annotator: the result
does not depend on the existing directory, an id is present afterwards
exactly when the new batch contains a request with that id, and every stored
request comes from the new batch. -/
theorem save_new_ar_replaces (existing : List (String × ARequest)) (reqs : List ARequest) :
    save_new_ar_for_user existing reqs true = save_new_ar_for_user [] reqs true ∧
    ∀ id : String,
      ((dictLookup (save_new_ar_for_user existing reqs true) id ≠ none) ↔
        ∃ r ∈ reqs, r.ar_id = id) ∧
      (∀ r2, dictLookup (save_new_ar_for_user existing reqs true) id = some r2 →
        r2 ∈ reqs ∧ r2.ar_id = id) := by
  refine ⟨by rw [save_new_ar_eq_map, save_new_ar_eq_map], ?_⟩
  intro id
  rw [save_new_ar_eq_map]
  constructor
  · rw [dictLookup_ne_none_iff]
    constructor
    · rintro ⟨v, hv⟩
      rw [List.mem_map] at hv
      obtain ⟨r, hr, hmap⟩ := hv
      obtain ⟨h1, h2⟩ := Prod.mk.injEq .. ▸ hmap
      exact ⟨r, hr, h1⟩
    · rintro ⟨r, hr, hid⟩
      exact ⟨r, List.mem_map.2 ⟨r, hr, by rw [hid]⟩⟩
  · intro r2 hr2
    have hmem := dictLookup_eq_some_mem hr2
    rw [List.mem_map] at hmem
    obtain ⟨r, hr, hmap⟩ := hmem
    obtain ⟨h1, h2⟩ := Prod.mk.injEq .. ▸ hmap
    subst h2
    exact ⟨hr, h1⟩

/-- Witness for C10: one stale file gets replaced by the single new request. -/
theorem save_new_ar_replaces_witness :
    save_new_ar_for_user [("old", ⟨"old", "p0"⟩)] [⟨"n1", "p1"⟩] true =
      save_new_ar_for_user [] [⟨"n1", "p1"⟩] true ∧
    ((dictLookup (save_new_ar_for_user [("old", ⟨"old", "p0"⟩)] [⟨"n1", "p1"⟩] true)
        "n1" ≠ none) ↔ ∃ r ∈ [(⟨"n1", "p1"⟩ : ARequest)], r.ar_id = "n1") ∧
    ((⟨"n1", "p1"⟩ : ARequest) ∈ [(⟨"n1", "p1"⟩ : ARequest)] ∧
      (⟨"n1", "p1"⟩ : ARequest).ar_id = "n1") :=
  ⟨(save_new_ar_replaces [("old", ⟨"old", "p0"⟩)] [⟨"n1", "p1"⟩]).1,
   ((save_new_ar_replaces [("old", ⟨"old", "p0"⟩)] [⟨"n1", "p1"⟩]).2 "n1").1,
   ((save_new_ar_replaces [("old", ⟨"old", "p0"⟩)] [⟨"n1", "p1"⟩]).2 "n1").2
     ⟨"n1", "p1"⟩ rfl⟩

/-! ## Claim C2 -/

theorem mcGo_const (f : List Int) (a : Int) :
    ∀ rest, (∀ c ∈ rest, f.count c ≤ f.count a) → mcGo f a rest = a := by
  intro rest
  induction rest with
  | nil => intro _; rfl
  | cons x xs ih =>
    intro h
    show mcGo f (if f.count x > f.count a then x else a) xs = a
    rw [if_neg (Nat.not_lt.2 (h x (List.mem_cons_self x xs)))]
    exact ih (fun c hc => h c (List.mem_cons_of_mem _ hc))

theorem mcGo_reach (f : List Int) (a : Int) :
    ∀ (pre : List Int) (best : Int) (post : List Int),
      f.count best < f.count a → (∀ c ∈ pre, f.count c < f.count a) →
      (∀ c ∈ post, f.count c ≤ f.count a) →
      mcGo f best (pre ++ a :: post) = a := by
  intro pre
  induction pre with
  | nil =>
    intro best post hb _ hpost
    show mcGo f (if f.count a > f.count best then a else best) post = a
    rw [if_pos hb]
    exact mcGo_const f a post hpost
  | cons c pre ih =>
    intro best post hb hpre hpost
    show mcGo f (if f.count c > f.count best then c else best) (pre ++ a :: post) = a
    by_cases hc : f.count c > f.count best
    · rw [if_pos hc]
      exact ih c post (hpre c (List.mem_cons_self c pre))
        (fun d hd => hpre d (List.mem_cons_of_mem _ hd)) hpost
    · rw [if_neg hc]
      exact ih best post hb (fun d hd => hpre d (List.mem_cons_of_mem _ hd)) hpost

theorem first_occ_split {α : Type} (a : α) :
    ∀ l : List α, a ∈ l → ∃ s t, l = s ++ a :: t ∧ a ∉ s := by
  intro l
  induction l with
  | nil => intro h; exact absurd h (List.not_mem_nil a)
  | cons x xs ih =>
    intro h
    by_cases hx : a = x
    · exact ⟨[], xs, by rw [hx]; rfl, List.not_mem_nil a⟩
    · obtain ⟨s, t, hst, hs⟩ := ih ((List.mem_cons.1 h).resolve_left hx)
      exact ⟨x :: s, t, by rw [hst]; rfl, by simp [hx, hs]⟩

theorem majorityLabel_eq_mcGo (l : List Int) (x : Int) (xs : List Int)
    (h : l.filter (fun v => v ≠ 0) = x :: xs) :
    majorityLabel l = some (mcGo (x :: xs) x xs) := by
  unfold majorityLabel
  rw [h]

/-- C2: in the unweighted consensus merge, whenever two distinct non-zero
values are tied for the greatest count and the first of them is the earliest
first-seen value among all values of maximal count, that first-seen value
wins; in particular merging the equal-weight votes [(1,1.0),(-1,1.0)], whose
value list is [1,-1], yields consensus value 1. -/
theorem majority_tie_break_first_seen :
    (∀ (l : List Int) (a b : Int),
      a ∈ l.filter (fun v => v ≠ 0) → b ∈ l.filter (fun v => v ≠ 0) → a ≠ b →
      (l.filter (fun v => v ≠ 0)).count b = (l.filter (fun v => v ≠ 0)).count a →
      (∀ c ∈ l.filter (fun v => v ≠ 0),
        (l.filter (fun v => v ≠ 0)).count c ≤ (l.filter (fun v => v ≠ 0)).count a) →
      (∀ c ∈ l.filter (fun v => v ≠ 0),
        (l.filter (fun v => v ≠ 0)).count c = (l.filter (fun v => v ≠ 0)).count a →
        (l.filter (fun v => v ≠ 0)).indexOf a ≤ (l.filter (fun v => v ≠ 0)).indexOf c) →
      majorityLabel l = some a) ∧
    majorityLabel [1, -1] = some 1 := by
  refine ⟨?_, by decide⟩
  intro l a b ha hb hab hcount hmax htie
  cases hfe : l.filter (fun v => v ≠ 0) with
  | nil => rw [hfe] at ha; exact absurd ha (List.not_mem_nil a)
  | cons x xs =>
    rw [majorityLabel_eq_mcGo l x xs hfe]
    rw [hfe] at ha hmax htie
    refine congrArg some ?_
    by_cases hax : a = x
    · subst hax
      exact mcGo_const (a :: xs) a xs (fun c hc => hmax c (List.mem_cons_of_mem _ hc))
    · obtain ⟨s, t, hst, hnotin⟩ := first_occ_split a xs ((List.mem_cons.1 ha).resolve_left hax)
      subst hst
      have hna : a ∉ x :: s := by
        intro hmem
        rcases List.mem_cons.1 hmem with h1 | h1
        · exact hax h1
        · exact hnotin h1
      have hFeq : x :: (s ++ a :: t) = (x :: s) ++ (a :: t) := rfl
      have hia : (x :: (s ++ a :: t)).indexOf a = s.length + 1 := by
        rw [hFeq, List.indexOf_append_of_not_mem hna, List.indexOf_cons_self]
        simp [Nat.add_comm]
      refine mcGo_reach (x :: (s ++ a :: t)) a s x t ?_ ?_ ?_
      · refine Nat.lt_of_le_of_ne (hmax x (List.mem_cons_self _ _)) ?_
        intro heq
        have hidx := htie x (List.mem_cons_self _ _) heq
        rw [hia, List.indexOf_cons_self] at hidx
        exact Nat.not_succ_le_zero _ hidx
      · intro c hc
        refine Nat.lt_of_le_of_ne
          (hmax c (List.mem_cons_of_mem _ (List.mem_append_left _ hc))) ?_
        intro heq
        have hidx := htie c (List.mem_cons_of_mem _ (List.mem_append_left _ hc)) heq
        have hcism : c ∈ x :: s := List.mem_cons_of_mem _ hc
        have hic : (x :: (s ++ a :: t)).indexOf c < s.length + 1 := by
          rw [hFeq, List.indexOf_append_of_mem hcism]
          exact List.indexOf_lt_length.2 hcism
        rw [hia] at hidx
        exact Nat.lt_irrefl _ (Nat.lt_of_le_of_lt hidx hic)
      · intro c hc
        exact hmax c (List.mem_cons_of_mem _
          (List.mem_append_right _ (List.mem_cons_of_mem _ hc)))

/-- Witness for C2 at the vote list [1, -1]: 1 and -1 are tied and 1 is seen
first, so the consensus is 1. -/
theorem majority_tie_break_first_seen_witness : majorityLabel [1, -1] = some 1 :=
  majority_tie_break_first_seen.1 [1, -1] 1 (-1) (by decide) (by decide) (by decide)
    (by decide) (by decide) (by decide)

/-! ## Claim C7 -/

/-- C7: every record emitted by the corpus export has a non-empty labels map;
its labels are the consensus merge of some gathered entity group, every label
whose consensus is None having been dropped (each surviving label carries a
consensus of the form some v for its gathered value list). -/
theorem export_records_nonempty_labels (annos : List PyAnno) (rec : ExportRec)
    (hrec : rec ∈ exportDistinct annos) :
    rec.labels ≠ [] ∧
    ∃ arId g, (arId, g) ∈ gatherLabels annos ∧ rec.labels = mergeLabels g ∧
      ∀ p ∈ rec.labels, ∃ vs, (p.1, vs) ∈ g ∧ majorityLabel vs = some p.2 := by
  rw [exportDistinct, List.mem_filterMap] at hrec
  obtain ⟨ag, hag, hsome⟩ := hrec
  by_cases hm : mergeLabels ag.2 = []
  · rw [if_pos hm] at hsome
    exact Option.noConfusion hsome
  · rw [if_neg hm] at hsome
    obtain rfl := Option.some.inj hsome
    refine ⟨hm, ag.1, ag.2, hag, rfl, ?_⟩
    intro p hp
    rw [mergeLabels, List.mem_filterMap] at hp
    obtain ⟨kv, hkv, hpmap⟩ := hp
    rw [Option.map_eq_some'] at hpmap
    obtain ⟨v, hv, hpv⟩ := hpmap
    subst hpv
    exact ⟨kv.2, hkv, hv⟩

/-- Witness for C7: a single annotation of entity x with label L valued 1
exports one record with the non-empty labels map [(L, 1)]. -/
theorem export_records_nonempty_labels_witness :
    (⟨"t", [("L", 1)]⟩ : ExportRec).labels ≠ [] ∧
    ∃ arId g, (arId, g) ∈ gatherLabels [⟨"x", some "t", [("L", 1)]⟩] ∧
      (⟨"t", [("L", 1)]⟩ : ExportRec).labels = mergeLabels g ∧
      ∀ p ∈ (⟨"t", [("L", 1)]⟩ : ExportRec).labels,
        ∃ vs, (p.1, vs) ∈ g ∧ majorityLabel vs = some p.2 :=
  export_records_nonempty_labels [⟨"x", some "t", [("L", 1)]⟩] ⟨"t", [("L", 1)]⟩
    (by decide)

/-! ## Claim C6 -/

theorem dictLookup_cons_eq {κ α : Type} [DecidableEq κ] (k0 : κ) (v : α)
    (t : List (κ × α)) (key : κ) :
    dictLookup ((k0, v) :: t) key = if k0 = key then some v else dictLookup t key := rfl

theorem dictLookup_cons_ne_none {κ α : Type} [DecidableEq κ]
    (k0 : κ) (v : α) (t : List (κ × α)) (key : κ) (h : dictLookup t key ≠ none) :
    dictLookup ((k0, v) :: t) key ≠ none := by
  rw [dictLookup_cons_eq]
  by_cases hk : k0 = key
  · rw [if_pos hk]
    exact Option.some_ne_none v
  · rw [if_neg hk]
    exact h

theorem kappaStep_cases (m m1 : MatrixT) (pk : String × String)
    (res : Option (List Int × List Int))
    (h : kappaStep m (pk, res) = .ok m1) :
    (res = none ∧ m1 = m) ∨
    (∃ k : ℚ, (∃ rs, res = some rs) ∧
      m1 = ((pk.2, pk.2), (1 : ℚ)) :: ((pk.1, pk.1), (1 : ℚ)) ::
        ((pk.2, pk.1), k) :: ((pk.1, pk.2), k) :: m) := by
  cases res with
  | none =>
    left
    exact ⟨rfl, (Except.ok.inj h).symm⟩
  | some rs =>
    right
    have h2 : (match excludeUnknowns rs.1 rs.2 with
      | .error e => (.error e : Except String MatrixT)
      | .ok p => .ok (setEntry (setEntry (setEntry (setEntry m (pk.1, pk.2)
          (kappaScore p.1 p.2)) (pk.2, pk.1) (kappaScore p.1 p.2))
          (pk.1, pk.1) 1) (pk.2, pk.2) 1)) = .ok m1 := h
    cases hex : excludeUnknowns rs.1 rs.2 with
    | error e =>
      simp only [hex] at h2
      exact Except.noConfusion h2
    | ok p =>
      simp only [hex] at h2
      exact ⟨kappaScore p.1 p.2, ⟨rs, rfl⟩, (Except.ok.inj h2).symm⟩

theorem lookup_step_symm (m : MatrixT) (p1 p2 : String) (k : ℚ)
    (hsymm : ∀ x y : String, dictLookup m (x, y) = dictLookup m (y, x)) :
    ∀ x y : String,
      dictLookup (((p2, p2), (1 : ℚ)) :: ((p1, p1), (1 : ℚ)) ::
        ((p2, p1), k) :: ((p1, p2), k) :: m) (x, y) =
      dictLookup (((p2, p2), (1 : ℚ)) :: ((p1, p1), (1 : ℚ)) ::
        ((p2, p1), k) :: ((p1, p2), k) :: m) (y, x) := by
  intro x y
  by_cases hxy : x = y
  · subst hxy; rfl
  · have hyx : y ≠ x := fun h => hxy h.symm
    have h22 : ((p2, p2) : String × String) ≠ (x, y) := by
      intro h
      rw [Prod.mk.injEq] at h
      exact hxy (h.1.symm.trans h.2)
    have h22r : ((p2, p2) : String × String) ≠ (y, x) := by
      intro h
      rw [Prod.mk.injEq] at h
      exact hyx (h.1.symm.trans h.2)
    have h11 : ((p1, p1) : String × String) ≠ (x, y) := by
      intro h
      rw [Prod.mk.injEq] at h
      exact hxy (h.1.symm.trans h.2)
    have h11r : ((p1, p1) : String × String) ≠ (y, x) := by
      intro h
      rw [Prod.mk.injEq] at h
      exact hyx (h.1.symm.trans h.2)
    simp only [dictLookup_cons_eq]
    rw [if_neg h22, if_neg h11, if_neg h22r, if_neg h11r]
    by_cases hA : ((p2, p1) : String × String) = (x, y)
    · have hAr : ((p1, p2) : String × String) = (y, x) := by
        rw [Prod.mk.injEq] at hA ⊢
        exact ⟨hA.2, hA.1⟩
      have hAnr : ((p2, p1) : String × String) ≠ (y, x) := by
        intro h
        rw [Prod.mk.injEq] at h hA
        exact hxy (hA.1.symm.trans h.1)
      rw [if_pos hA, if_neg hAnr, if_pos hAr]
    · rw [if_neg hA]
      by_cases hB : ((p1, p2) : String × String) = (x, y)
      · have hBr : ((p2, p1) : String × String) = (y, x) := by
          rw [Prod.mk.injEq] at hB ⊢
          exact ⟨hB.2, hB.1⟩
        rw [if_pos hB, if_pos hBr]
      · have hAr2 : ((p2, p1) : String × String) ≠ (y, x) := by
          intro h
          rw [Prod.mk.injEq] at h
          apply hB
          rw [Prod.mk.injEq]
          exact ⟨h.2, h.1⟩
        have hBr2 : ((p1, p2) : String × String) ≠ (y, x) := by
          intro h
          rw [Prod.mk.injEq] at h
          apply hA
          rw [Prod.mk.injEq]
          exact ⟨h.2, h.1⟩
        rw [if_neg hB, if_neg hAr2, if_neg hBr2]
        exact hsymm x y

theorem lookup_step_diag (m : MatrixT) (p1 p2 : String) (k : ℚ) (x : String)
    (h : dictLookup m (x, x) = some 1) :
    dictLookup (((p2, p2), (1 : ℚ)) :: ((p1, p1), (1 : ℚ)) ::
      ((p2, p1), k) :: ((p1, p2), k) :: m) (x, x) = some 1 := by
  simp only [dictLookup_cons_eq]
  by_cases h2 : p2 = x
  · rw [if_pos (by rw [h2])]
  · rw [if_neg (by simp [Prod.mk.injEq, h2])]
    by_cases h1 : p1 = x
    · rw [if_pos (by rw [h1])]
    · rw [if_neg (by simp [Prod.mk.injEq, h1]),
        if_neg (by simp [Prod.mk.injEq, h2]),
        if_neg (by simp [Prod.mk.injEq, h1])]
      exact h

theorem lookup_step_pres_some (m : MatrixT) (p1 p2 : String) (k : ℚ)
    (key : String × String) (h : dictLookup m key ≠ none) :
    dictLookup (((p2, p2), (1 : ℚ)) :: ((p1, p1), (1 : ℚ)) ::
      ((p2, p1), k) :: ((p1, p2), k) :: m) key ≠ none :=
  dictLookup_cons_ne_none _ _ _ _ (dictLookup_cons_ne_none _ _ _ _
    (dictLookup_cons_ne_none _ _ _ _ (dictLookup_cons_ne_none _ _ _ _ h)))

theorem lookup_step_new (m : MatrixT) (p1 p2 : String) (k : ℚ) :
    dictLookup (((p2, p2), (1 : ℚ)) :: ((p1, p1), (1 : ℚ)) ::
      ((p2, p1), k) :: ((p1, p2), k) :: m) (p1, p2) ≠ none ∧
    dictLookup (((p2, p2), (1 : ℚ)) :: ((p1, p1), (1 : ℚ)) ::
      ((p2, p1), k) :: ((p1, p2), k) :: m) (p1, p1) = some 1 ∧
    dictLookup (((p2, p2), (1 : ℚ)) :: ((p1, p1), (1 : ℚ)) ::
      ((p2, p1), k) :: ((p1, p2), k) :: m) (p2, p2) = some 1 := by
  refine ⟨?_, ?_, ?_⟩
  · simp only [dictLookup_cons_eq]
    by_cases hA : ((p2, p2) : String × String) = (p1, p2)
    · rw [if_pos hA]
      exact Option.some_ne_none _
    · rw [if_neg hA]
      by_cases hB : ((p1, p1) : String × String) = (p1, p2)
      · rw [if_pos hB]
        exact Option.some_ne_none _
      · rw [if_neg hB]
        by_cases hC : ((p2, p1) : String × String) = (p1, p2)
        · rw [if_pos hC]
          exact Option.some_ne_none _
        · rw [if_neg hC]
          simp
  · simp only [dictLookup_cons_eq]
    by_cases hpp : p2 = p1
    · rw [if_pos (by rw [hpp])]
    · rw [if_neg (by simp [Prod.mk.injEq, hpp])]
      simp
  · simp [dictLookup_cons_eq]

theorem compute_ok_props :
    ∀ (pd : List ((String × String) × Option (List Int × List Int)))
      (m0 m : MatrixT),
      computeKappaMatrixFrom m0 pd = .ok m →
      (∀ x y : String, dictLookup m0 (x, y) = dictLookup m0 (y, x)) →
      ((∀ x y : String, dictLookup m (x, y) = dictLookup m (y, x)) ∧
       (∀ key, dictLookup m0 key ≠ none → dictLookup m key ≠ none) ∧
       (∀ x : String, dictLookup m0 (x, x) = some 1 → dictLookup m (x, x) = some 1) ∧
       (∀ kp r, (kp, some r) ∈ pd → dictLookup m kp ≠ none ∧
          dictLookup m (kp.1, kp.1) = some 1 ∧ dictLookup m (kp.2, kp.2) = some 1)) := by
  intro pd
  induction pd with
  | nil =>
    intro m0 m h hsymm
    obtain rfl : m0 = m := Except.ok.inj h
    exact ⟨hsymm, fun _ h => h, fun _ h => h,
      fun kp r hmem => absurd hmem (List.not_mem_nil _)⟩
  | cons pr t ih =>
    obtain ⟨prk, prres⟩ := pr
    intro m0 m h hsymm
    rw [computeKappaMatrixFrom, List.foldlM_cons] at h
    cases hstep : kappaStep m0 (prk, prres) with
    | error e =>
      rw [hstep] at h
      exact Except.noConfusion h
    | ok m1 =>
      rw [hstep] at h
      have hrest : computeKappaMatrixFrom m1 t = .ok m := h
      rcases kappaStep_cases m0 m1 prk prres hstep with ⟨hnone, rfl⟩ | ⟨k, ⟨rs, hres⟩, rfl⟩
      · obtain ⟨hs, hpres, hdiag, hmem⟩ := ih _ m hrest hsymm
        refine ⟨hs, hpres, hdiag, ?_⟩
        intro kp r hin
        rcases List.mem_cons.1 hin with heq | hint
        · exfalso
          have h2 : prres = some r := congrArg Prod.snd heq.symm
          rw [hnone] at h2
          exact Option.noConfusion h2
        · exact hmem kp r hint
      · have hsymm1 := lookup_step_symm m0 prk.1 prk.2 k hsymm
        obtain ⟨hs, hpres, hdiag, hmem⟩ := ih _ m hrest hsymm1
        refine ⟨hs, ?_, ?_, ?_⟩
        · intro key hkey
          exact hpres key (lookup_step_pres_some m0 prk.1 prk.2 k key hkey)
        · intro x hx
          exact hdiag x (lookup_step_diag m0 prk.1 prk.2 k x hx)
        · intro kp r hin
          rcases List.mem_cons.1 hin with heq | hint
          · have h1 : kp = prk := congrArg Prod.fst heq
            subst h1
            obtain ⟨hnew1, hnew2, hnew3⟩ := lookup_step_new m0 kp.1 kp.2 k
            exact ⟨hpres kp hnew1, hdiag kp.1 hnew2, hdiag kp.2 hnew3⟩
          · exact hmem kp r hint

/-- C6: whenever the per-label matrix computation succeeds, the agreement
matrix is symmetric (the entries at (a,b) and (b,a) are always equal, in
particular a computed pair score is stored identically at both orientations),
and for every pair for which a kappa score was computed the pair entry exists
and both annotators of the pair have diagonal self-agreement entry 1.0. -/
theorem kappa_matrix_symmetric_diagonal
    (pd : List ((String × String) × Option (List Int × List Int))) (m : MatrixT)
    (hm : computeKappaMatrixForLabel pd = .ok m) :
    (∀ a b : String, dictLookup m (a, b) = dictLookup m (b, a)) ∧
    (∀ kp r, (kp, some r) ∈ pd → dictLookup m kp ≠ none ∧
      dictLookup m (kp.1, kp.1) = some 1 ∧ dictLookup m (kp.2, kp.2) = some 1) := by
  obtain ⟨hs, _, _, hmem⟩ := compute_ok_props pd [] m hm (fun x y => rfl)
  exact ⟨hs, hmem⟩

/-- Witness for C6: one annotator pair with one shared observation produces a
symmetric matrix whose pair entry exists and whose diagonal entries are 1. -/
theorem kappa_matrix_symmetric_diagonal_witness :
    (∀ a b : String,
      dictLookup [(("b", "b"), (1 : ℚ)), (("a", "a"), (1 : ℚ)),
        (("b", "a"), kappaScore [1] [1]), (("a", "b"), kappaScore [1] [1])] (a, b) =
      dictLookup [(("b", "b"), (1 : ℚ)), (("a", "a"), (1 : ℚ)),
        (("b", "a"), kappaScore [1] [1]), (("a", "b"), kappaScore [1] [1])] (b, a)) ∧
    (∀ kp r, (kp, some r) ∈
        [((("a", "b") : String × String), some (([1], [1]) : List Int × List Int))] →
      dictLookup [(("b", "b"), (1 : ℚ)), (("a", "a"), (1 : ℚ)),
        (("b", "a"), kappaScore [1] [1]), (("a", "b"), kappaScore [1] [1])] kp ≠ none ∧
      dictLookup [(("b", "b"), (1 : ℚ)), (("a", "a"), (1 : ℚ)),
        (("b", "a"), kappaScore [1] [1]), (("a", "b"), kappaScore [1] [1])]
          (kp.1, kp.1) = some 1 ∧
      dictLookup [(("b", "b"), (1 : ℚ)), (("a", "a"), (1 : ℚ)),
        (("b", "a"), kappaScore [1] [1]), (("a", "b"), kappaScore [1] [1])]
          (kp.2, kp.2) = some 1) :=
  kappa_matrix_symmetric_diagonal
    [(("a", "b"), some (([1], [1]) : List Int × List Int))]
    [(("b", "b"), (1 : ℚ)), (("a", "a"), (1 : ℚ)),
      (("b", "a"), kappaScore [1] [1]), (("a", "b"), kappaScore [1] [1])] rfl

/-! ## Claim C1 -/

theorem lookup_step_ne_iff (m : MatrixT) (p1 p2 : String) (k : ℚ) (x y : String)
    (hxy : x ≠ y) :
    dictLookup (((p2, p2), (1 : ℚ)) :: ((p1, p1), (1 : ℚ)) ::
      ((p2, p1), k) :: ((p1, p2), k) :: m) (x, y) ≠ none ↔
    ((p1, p2) = (x, y) ∨ (p1, p2) = (y, x) ∨ dictLookup m (x, y) ≠ none) := by
  have h22 : ((p2, p2) : String × String) ≠ (x, y) := by
    intro h
    rw [Prod.mk.injEq] at h
    exact hxy (h.1.symm.trans h.2)
  have h11 : ((p1, p1) : String × String) ≠ (x, y) := by
    intro h
    rw [Prod.mk.injEq] at h
    exact hxy (h.1.symm.trans h.2)
  simp only [dictLookup_cons_eq]
  rw [if_neg h22, if_neg h11]
  by_cases hC : ((p2, p1) : String × String) = (x, y)
  · rw [if_pos hC]
    constructor
    · intro _
      refine Or.inr (Or.inl ?_)
      rw [Prod.mk.injEq] at hC ⊢
      exact ⟨hC.2, hC.1⟩
    · intro _
      exact Option.some_ne_none _
  · rw [if_neg hC]
    by_cases hD : ((p1, p2) : String × String) = (x, y)
    · rw [if_pos hD]
      constructor
      · intro _
        exact Or.inl hD
      · intro _
        exact Option.some_ne_none _
    · rw [if_neg hD]
      constructor
      · intro h
        exact Or.inr (Or.inr h)
      · rintro (h | h | h)
        · exact absurd h hD
        · exfalso
          apply hC
          rw [Prod.mk.injEq] at h ⊢
          exact ⟨h.2, h.1⟩
        · exact h

theorem compute_entry_iff :
    ∀ (pd : List ((String × String) × Option (List Int × List Int))) (m0 m : MatrixT),
      computeKappaMatrixFrom m0 pd = .ok m →
      ∀ x y : String, x ≠ y →
      (dictLookup m (x, y) ≠ none ↔
        (dictLookup m0 (x, y) ≠ none ∨
          ∃ r, ((x, y), some r) ∈ pd ∨ ((y, x), some r) ∈ pd)) := by
  intro pd
  induction pd with
  | nil =>
    intro m0 m h x y hxy
    obtain rfl : m0 = m := Except.ok.inj h
    simp
  | cons pr t ih =>
    obtain ⟨prk, prres⟩ := pr
    intro m0 m h x y hxy
    rw [computeKappaMatrixFrom, List.foldlM_cons] at h
    cases hstep : kappaStep m0 (prk, prres) with
    | error e =>
      rw [hstep] at h
      exact Except.noConfusion h
    | ok m1 =>
      rw [hstep] at h
      have hrest : computeKappaMatrixFrom m1 t = .ok m := h
      have hih := ih m1 m hrest x y hxy
      rcases kappaStep_cases m0 m1 prk prres hstep with ⟨hnone, rfl⟩ | ⟨k, ⟨rs, hres⟩, rfl⟩
      · rw [hih]
        constructor
        · rintro (h0 | ⟨r, hr | hr⟩)
          · exact Or.inl h0
          · exact Or.inr ⟨r, Or.inl (List.mem_cons_of_mem _ hr)⟩
          · exact Or.inr ⟨r, Or.inr (List.mem_cons_of_mem _ hr)⟩
        · rintro (h0 | ⟨r, hr | hr⟩)
          · exact Or.inl h0
          · rcases List.mem_cons.1 hr with heq | hint
            · exfalso
              have h2 : prres = some r := congrArg Prod.snd heq.symm
              rw [hnone] at h2
              exact Option.noConfusion h2
            · exact Or.inr ⟨r, Or.inl hint⟩
          · rcases List.mem_cons.1 hr with heq | hint
            · exfalso
              have h2 : prres = some r := congrArg Prod.snd heq.symm
              rw [hnone] at h2
              exact Option.noConfusion h2
            · exact Or.inr ⟨r, Or.inr hint⟩
      · subst hres
        rw [hih, lookup_step_ne_iff m0 prk.1 prk.2 k x y hxy]
        constructor
        · rintro ((hp | hp | h0) | ⟨r, hr | hr⟩)
          · refine Or.inr ⟨rs, Or.inl ?_⟩
            have : prk = (x, y) := hp
            rw [← this]
            exact List.mem_cons_self _ _
          · refine Or.inr ⟨rs, Or.inr ?_⟩
            have : prk = (y, x) := hp
            rw [← this]
            exact List.mem_cons_self _ _
          · exact Or.inl h0
          · exact Or.inr ⟨r, Or.inl (List.mem_cons_of_mem _ hr)⟩
          · exact Or.inr ⟨r, Or.inr (List.mem_cons_of_mem _ hr)⟩
        · rintro (h0 | ⟨r, hr | hr⟩)
          · exact Or.inl (Or.inr (Or.inr h0))
          · rcases List.mem_cons.1 hr with heq | hint
            · refine Or.inl (Or.inl ?_)
              have : (x, y) = prk := congrArg Prod.fst heq
              exact this.symm
            · exact Or.inr ⟨r, Or.inl hint⟩
          · rcases List.mem_cons.1 hr with heq | hint
            · refine Or.inl (Or.inr (Or.inl ?_))
              have : (y, x) = prk := congrArg Prod.fst heq
              exact this.symm
            · exact Or.inr ⟨r, Or.inr hint⟩

theorem mem_dedupKeysAux {α : Type} [DecidableEq α] :
    ∀ (l seen : List α) (a : α), a ∈ dedupKeysAux seen l ↔ (a ∈ l ∧ a ∉ seen) := by
  intro l
  induction l with
  | nil =>
    intro seen a
    simp [dedupKeysAux]
  | cons x xs ih =>
    intro seen a
    rw [dedupKeysAux]
    by_cases hx : x ∈ seen
    · rw [if_pos hx, ih]
      constructor
      · rintro ⟨h1, h2⟩
        exact ⟨List.mem_cons_of_mem _ h1, h2⟩
      · rintro ⟨h1, h2⟩
        rcases List.mem_cons.1 h1 with rfl | h1
        · exact absurd hx h2
        · exact ⟨h1, h2⟩
    · rw [if_neg hx]
      constructor
      · intro h
        rcases List.mem_cons.1 h with rfl | h
        · exact ⟨List.mem_cons_self _ _, hx⟩
        · obtain ⟨h1, h2⟩ := (ih (x :: seen) a).1 h
          exact ⟨List.mem_cons_of_mem _ h1,
            fun hmem => h2 (List.mem_cons_of_mem _ hmem)⟩
      · rintro ⟨h1, h2⟩
        rcases List.mem_cons.1 h1 with rfl | h1
        · exact List.mem_cons_self _ _
        · by_cases hax : a = x
          · subst hax
            exact List.mem_cons_self _ _
          · refine List.mem_cons_of_mem _ ((ih (x :: seen) a).2 ⟨h1, ?_⟩)
            intro hmem
            rcases List.mem_cons.1 hmem with h | h
            · exact hax h
            · exact h2 h

theorem mem_dedupKeys {α : Type} [DecidableEq α] (l : List α) (a : α) :
    a ∈ dedupKeys l ↔ a ∈ l := by
  rw [dedupKeys, mem_dedupKeysAux]
  simp

theorem mem_combinations_both {α : Type} :
    ∀ (l : List α) (uv : α × α), uv ∈ combinations l → uv.1 ∈ l ∧ uv.2 ∈ l := by
  intro l
  induction l with
  | nil =>
    intro uv h
    simp [combinations] at h
  | cons x xs ih =>
    intro uv h
    rw [combinations] at h
    rcases List.mem_append.1 h with h | h
    · rw [List.mem_map] at h
      obtain ⟨y, hy, rfl⟩ := h
      exact ⟨List.mem_cons_self _ _, List.mem_cons_of_mem _ hy⟩
    · obtain ⟨h1, h2⟩ := ih uv h
      exact ⟨List.mem_cons_of_mem _ h1, List.mem_cons_of_mem _ h2⟩

theorem combinations_of_mem {α : Type} :
    ∀ (l : List α) (a b : α), a ∈ l → b ∈ l → a ≠ b →
      (a, b) ∈ combinations l ∨ (b, a) ∈ combinations l := by
  intro l
  induction l with
  | nil =>
    intro a b ha _ _
    exact absurd ha (List.not_mem_nil _)
  | cons x xs ih =>
    intro a b ha hb hab
    rcases List.mem_cons.1 ha with rfl | ha2
    · have hb2 : b ∈ xs := by
        rcases List.mem_cons.1 hb with rfl | h
        · exact absurd rfl hab
        · exact h
      left
      rw [combinations]
      exact List.mem_append_left _ (List.mem_map.2 ⟨b, hb2, rfl⟩)
    · rcases List.mem_cons.1 hb with rfl | hb2
      · right
        rw [combinations]
        exact List.mem_append_left _ (List.mem_map.2 ⟨a, ha2, rfl⟩)
      · rcases ih a b ha2 hb2 hab with h | h
        · left
          rw [combinations]
          exact List.mem_append_right _ h
        · right
          rw [combinations]
          exact List.mem_append_right _ h

theorem retrieveShared_def (u1 u2 : PyUser) :
    retrieveShared u1 u2 =
      (if (ctxKeys u1).filter (fun c => (ctxKeys u2).contains c) = [] then none
       else some
        (((ctxKeys u1).filter (fun c => (ctxKeys u2).contains c)).map (fun c => ctxVal u1 c),
         ((ctxKeys u1).filter (fun c => (ctxKeys u2).contains c)).map (fun c => ctxVal u2 c))) :=
  rfl

theorem retrieveShared_eq_none_iff (u1 u2 : PyUser) :
    retrieveShared u1 u2 = none ↔
      ¬ ∃ c, c ∈ u1.annotations.map Prod.fst ∧ c ∈ u2.annotations.map Prod.fst := by
  rw [retrieveShared_def]
  split_ifs with h
  · constructor
    · intro _
      rintro ⟨c, hc1, hc2⟩
      rw [List.filter_eq_nil_iff] at h
      have hm1 : c ∈ ctxKeys u1 := (mem_dedupKeys _ _).2 hc1
      have hm2 : c ∈ ctxKeys u2 := (mem_dedupKeys _ _).2 hc2
      have hno := h c hm1
      simp only [List.contains_eq_any_beq, List.any_eq_true, beq_iff_eq,
        not_exists, not_and] at hno
      exact hno c hm2 rfl
    · intro _
      rfl
  · constructor
    · intro h2
      exact absurd h2 (by simp)
    · intro hne
      exfalso
      apply hne
      obtain ⟨c, hc⟩ := List.exists_mem_of_ne_nil _ h
      have hc1 := List.mem_of_mem_filter hc
      have hc2 := List.of_mem_filter hc
      simp only [List.contains_eq_any_beq, List.any_eq_true, beq_iff_eq] at hc2
      obtain ⟨c2, hc2m, heqc⟩ := hc2
      rw [← heqc] at hc2m
      exact ⟨c, (mem_dedupKeys _ _).1 hc1, (mem_dedupKeys _ _).1 hc2m⟩

theorem constructPairData_fst (u1 u2 : PyUser) :
    (constructPairData u1 u2).1 = sortedKey u1 u2 := rfl

theorem sortedKey_cases (u1 u2 : PyUser) :
    sortedKey u1 u2 = (u1.username, u2.username) ∨
    sortedKey u1 u2 = (u2.username, u1.username) := by
  unfold sortedKey
  split_ifs
  · right
    rfl
  · left
    rfl

theorem constructPairData_snd_none_iff (u1 u2 : PyUser) :
    (constructPairData u1 u2).2 = none ↔ retrieveShared u1 u2 = none := by
  cases h : retrieveShared u1 u2 with
  | none => simp [constructPairData, h]
  | some vs =>
    simp only [constructPairData, h]
    split_ifs <;> simp

/-- C1 counterexample: two annotators who share exactly one context and are
both unsure (value 0) about it have a non-empty entity intersection but zero
paired observations after dropping unsure positions; the claim says such a
pair has no matrix entry, yet the computed matrix does hold an entry for the
pair (the kappa score of two empty sequences, NaN in the float code). -/
theorem kappa_entry_zero_overlap_counterexample :
    matrixEntry (computeKappaMatrixForLabel (constructKappaStatsRawData
      [⟨"a", [(7, 0)]⟩, ⟨"b", [(7, 0)]⟩])) ("a", "b") ≠ none ∧
    matrixEntry (computeKappaMatrixForLabel (constructKappaStatsRawData
      [⟨"a", [(7, 0)]⟩, ⟨"b", [(7, 0)]⟩])) ("a", "b") = some (kappaScore [] []) ∧
    (∀ u ∈ ([⟨"a", [(7, 0)]⟩, ⟨"b", [(7, 0)]⟩] : List PyUser),
      ∀ p ∈ u.annotations, p.2 = 0) := by
  have h : matrixEntry (computeKappaMatrixForLabel (constructKappaStatsRawData
      [⟨"a", [(7, 0)]⟩, ⟨"b", [(7, 0)]⟩])) ("a", "b") = some (kappaScore [] []) := rfl
  refine ⟨?_, h, by decide⟩
  rw [h]
  exact Option.some_ne_none _

/-- C1 amended: for every user list with pairwise-distinct usernames whose
matrix computation succeeds, and every two users a and b in it, the agreement
matrix holds an entry for (a,b) exactly when the entity (context) sets the two
users annotated intersect; a pair with empty intersection has no entry at all,
but a pair with non-empty intersection always has one, even when zero paired
observations remain after dropping unsure values. -/
theorem kappa_entry_iff_intersection (users : List PyUser) (m : MatrixT) (a b : PyUser)
    (hnd : (users.map PyUser.username).Nodup)
    (hm : computeKappaMatrixForLabel (constructKappaStatsRawData users) = .ok m)
    (ha : a ∈ users) (hb : b ∈ users) (hab : a.username ≠ b.username) :
    dictLookup m (a.username, b.username) ≠ none ↔
      ∃ c, c ∈ a.annotations.map Prod.fst ∧ c ∈ b.annotations.map Prod.fst := by
  have hiff := compute_entry_iff (constructKappaStatsRawData users) [] m hm
    a.username b.username hab
  rw [hiff]
  constructor
  · rintro (h0 | ⟨r, hr | hr⟩)
    · exact absurd rfl h0
    · rw [constructKappaStatsRawData, List.mem_map] at hr
      obtain ⟨uv, huv, heq⟩ := hr
      have hkey : sortedKey uv.1 uv.2 = (a.username, b.username) := by
        rw [← constructPairData_fst]
        exact congrArg Prod.fst heq
      have hsnd : (constructPairData uv.1 uv.2).2 = some r := congrArg Prod.snd heq
      have hret : retrieveShared uv.1 uv.2 ≠ none := by
        intro hn
        rw [← constructPairData_snd_none_iff] at hn
        rw [hn] at hsnd
        exact Option.noConfusion hsnd
      obtain ⟨u1m, u2m⟩ := mem_combinations_both users uv huv
      have hshared : ∃ c, c ∈ uv.1.annotations.map Prod.fst ∧
          c ∈ uv.2.annotations.map Prod.fst := by
        by_contra hcon
        exact hret ((retrieveShared_eq_none_iff uv.1 uv.2).2 hcon)
      rcases sortedKey_cases uv.1 uv.2 with hsk | hsk
      · rw [hsk] at hkey
        have e1 : uv.1 = a := List.inj_on_of_nodup_map hnd u1m ha (congrArg Prod.fst hkey)
        have e2 : uv.2 = b := List.inj_on_of_nodup_map hnd u2m hb (congrArg Prod.snd hkey)
        rw [e1, e2] at hshared
        exact hshared
      · rw [hsk] at hkey
        have e1 : uv.2 = a := List.inj_on_of_nodup_map hnd u2m ha (congrArg Prod.fst hkey)
        have e2 : uv.1 = b := List.inj_on_of_nodup_map hnd u1m hb (congrArg Prod.snd hkey)
        rw [e1, e2] at hshared
        obtain ⟨c, hc1, hc2⟩ := hshared
        exact ⟨c, hc2, hc1⟩
    · rw [constructKappaStatsRawData, List.mem_map] at hr
      obtain ⟨uv, huv, heq⟩ := hr
      have hkey : sortedKey uv.1 uv.2 = (b.username, a.username) := by
        rw [← constructPairData_fst]
        exact congrArg Prod.fst heq
      have hsnd : (constructPairData uv.1 uv.2).2 = some r := congrArg Prod.snd heq
      have hret : retrieveShared uv.1 uv.2 ≠ none := by
        intro hn
        rw [← constructPairData_snd_none_iff] at hn
        rw [hn] at hsnd
        exact Option.noConfusion hsnd
      obtain ⟨u1m, u2m⟩ := mem_combinations_both users uv huv
      have hshared : ∃ c, c ∈ uv.1.annotations.map Prod.fst ∧
          c ∈ uv.2.annotations.map Prod.fst := by
        by_contra hcon
        exact hret ((retrieveShared_eq_none_iff uv.1 uv.2).2 hcon)
      rcases sortedKey_cases uv.1 uv.2 with hsk | hsk
      · rw [hsk] at hkey
        have e1 : uv.1 = b := List.inj_on_of_nodup_map hnd u1m hb (congrArg Prod.fst hkey)
        have e2 : uv.2 = a := List.inj_on_of_nodup_map hnd u2m ha (congrArg Prod.snd hkey)
        rw [e1, e2] at hshared
        obtain ⟨c, hc1, hc2⟩ := hshared
        exact ⟨c, hc2, hc1⟩
      · rw [hsk] at hkey
        have e1 : uv.2 = b := List.inj_on_of_nodup_map hnd u2m hb (congrArg Prod.fst hkey)
        have e2 : uv.1 = a := List.inj_on_of_nodup_map hnd u1m ha (congrArg Prod.snd hkey)
        rw [e1, e2] at hshared
        exact hshared
  · rintro ⟨c, hc1, hc2⟩
    right
    have hneq : a ≠ b := fun h => hab (congrArg PyUser.username h)
    rcases combinations_of_mem users a b ha hb hneq with hcomb | hcomb
    · have hpdmem : constructPairData a b ∈ constructKappaStatsRawData users := by
        rw [constructKappaStatsRawData]
        exact List.mem_map.2 ⟨(a, b), hcomb, rfl⟩
      have hret : retrieveShared a b ≠ none := fun h =>
        ((retrieveShared_eq_none_iff a b).1 h) ⟨c, hc1, hc2⟩
      cases hres : (constructPairData a b).2 with
      | none => exact absurd ((constructPairData_snd_none_iff a b).1 hres) hret
      | some r =>
        have hfull : constructPairData a b = (sortedKey a b, some r) := by
          rw [← hres]
          rfl
        rcases sortedKey_cases a b with hk | hk
        · refine ⟨r, Or.inl ?_⟩
          rw [hk] at hfull
          rw [← hfull]
          exact hpdmem
        · refine ⟨r, Or.inr ?_⟩
          rw [hk] at hfull
          rw [← hfull]
          exact hpdmem
    · have hpdmem : constructPairData b a ∈ constructKappaStatsRawData users := by
        rw [constructKappaStatsRawData]
        exact List.mem_map.2 ⟨(b, a), hcomb, rfl⟩
      have hret : retrieveShared b a ≠ none := fun h =>
        ((retrieveShared_eq_none_iff b a).1 h) ⟨c, hc2, hc1⟩
      cases hres : (constructPairData b a).2 with
      | none => exact absurd ((constructPairData_snd_none_iff b a).1 hres) hret
      | some r =>
        have hfull : constructPairData b a = (sortedKey b a, some r) := by
          rw [← hres]
          rfl
        rcases sortedKey_cases b a with hk | hk
        · refine ⟨r, Or.inr ?_⟩
          rw [hk] at hfull
          rw [← hfull]
          exact hpdmem
        · refine ⟨r, Or.inl ?_⟩
          rw [hk] at hfull
          rw [← hfull]
          exact hpdmem

/-- Witness for C1: two users with distinct names and disjoint context sets
produce a matrix with no entry for their pair, as the intersection is empty. -/
theorem kappa_entry_iff_intersection_witness :
    dictLookup ([] : MatrixT) ("a", "b") ≠ none ↔
      ∃ c, c ∈ (PyUser.mk "a" [(1, 1)]).annotations.map Prod.fst ∧
        c ∈ (PyUser.mk "b" [(2, 1)]).annotations.map Prod.fst :=
  kappa_entry_iff_intersection [⟨"a", [(1, 1)]⟩, ⟨"b", [(2, 1)]⟩] []
    ⟨"a", [(1, 1)]⟩ ⟨"b", [(2, 1)]⟩ (by decide) rfl (by decide) (by decide) (by decide)
